import Mathlib

/-!
Verification of the `walktree` library (src/lib.rs): a builder that drives a
directory-traversal provider (`walkdir`), pipes the entries through an
optional filter and a mapper, and assembles an `indextree::Arena` plus a
bidirectional `bimap::BiMap` between paths and node identities.

The embedding below translates the library's own code.  External
collaborators are modelled from their contracts: the arena's `append`
(adds the node as last child), the bimap's `insert`/`get_by_left`/
`get_by_right` (overwrite semantics, unspecified iteration order — made an
explicit `order` parameter of `build`), and the traversal provider with
`filter_entry` prune semantics (`walkF` below).
-/

namespace Walktree

/-- A filesystem path, modelled as the list of components of an absolute
path; `[]` stands for the filesystem root.  Mirrors `std::path::PathBuf`
as the library uses it (paths are compared, split at the last component,
and stored as map keys). -/
abbrev PathM : Type := List String

/-- `std::path::Path::parent`: drop the final component; `None` at the
root. -/
def parentDir : PathM → Option PathM
  | [] => none
  | x :: xs => some ((x :: xs).dropLast)

/-- The data a `walkdir::DirEntry` exposes to this library's filter and
mapper: its absolute path and whether it is a directory. -/
structure DirEntryM where
  path : PathM
  isDir : Bool
deriving DecidableEq

/-- A `walkdir::Error`: the provider attempted an entry (at the recorded
path) and could not produce it (permission denied, broken link, cycle). -/
structure WalkdirErrorM where
  path : PathM
deriving DecidableEq

/-- `Result::ok` applied to one item of the walkdir stream, as in
`filter_map(|x| x.ok())` (src/lib.rs lines 166 and 169). -/
def resultOk : Except WalkdirErrorM DirEntryM → Option DirEntryM
  | .ok e => some e
  | .error _ => none

/-- `pub enum WalkTreeError {}` (src/lib.rs line 10): an error enum with no
variants, hence an uninhabited type. -/
inductive WalkTreeErrorM : Type

/-- `Result::is_ok`, spelled out for the statements below. -/
def exceptIsOk {ε α : Type _} : Except ε α → Bool
  | .ok _ => true
  | .error _ => false

/-- `pub enum WalkDirOption` (src/lib.rs lines 75-85). -/
inductive WalkDirOptionM : Type where
  | contentsFirst
  | followLinks
  | maxDepth (i : Nat)
  | maxOpen (i : Nat)
  | minDepth (i : Nat)
  | sameFileSystem
  | sortBy (f : DirEntryM → DirEntryM → Ordering)
  | sortByFileName
  | sortByKey (f : DirEntryM → Ordering)

/-- `WalkDirModes::check_compability` (src/lib.rs lines 97-99): returns
`Ok(())` unconditionally. -/
def checkCompability (_modes : List WalkDirOptionM) : Except WalkTreeErrorM Unit :=
  Except.ok ()

/-- A `bimap::BiMap<PathBuf, NodeId>` value, modelled as its list of
(left, right) pairs. -/
abbrev BiMapM : Type := List (PathM × Nat)

/-- `BiMap::insert`: remove any pair sharing the left key and any pair
sharing the right key, then add the new pair (the overwrite semantics used
by `collect::<BiMap<_, _>>()`). -/
def bimapInsert (m : BiMapM) (l : PathM) (r : Nat) : BiMapM :=
  (m.filter fun pr => !(decide (pr.1 = l)) && !(decide (pr.2 = r))) ++ [(l, r)]

/-- `collect::<BiMap<_, _>>()` over a sequence of pairs: fold `insert`. -/
def collectBiMap (pairs : List (PathM × Nat)) : BiMapM :=
  pairs.foldl (fun m pr => bimapInsert m pr.1 pr.2) []

/-- `BiMap::get_by_left`. -/
def getByLeft (m : BiMapM) (p : PathM) : Option Nat :=
  (m.find? fun pr => decide (pr.1 = p)).map Prod.snd

/-- `BiMap::get_by_right`. -/
def getByRight (m : BiMapM) (id : Nat) : Option PathM :=
  (m.find? fun pr => decide (pr.2 = id)).map Prod.fst

/-- One slot of an `indextree::Arena<T>`: the user data plus the structural
links the arena maintains.  The children are kept as an ordered list, the
order `NodeId::append` establishes (each `append` makes the appended node
the last child).  The library never detaches nodes, so this covers the
subset of the arena interface it uses. -/
structure ArenaNodeM (T : Type) where
  data : T
  parent : Option Nat := none
  children : List Nat := []
deriving DecidableEq

/-- An `indextree::Arena<T>`: slots indexed by `NodeId`, modelled as the
position at which `Arena::new_node` allocated them (indextree hands out
identities in allocation order). -/
abbrev ArenaM (T : Type) : Type := List (ArenaNodeM T)

variable {T : Type}

/-- Replace the element at one position of a list (identity out of range). -/
def modifyIdx {α : Type _} : List α → Nat → (α → α) → List α
  | [], _, _ => []
  | x :: xs, 0, f => f x :: xs
  | x :: xs, n + 1, f => x :: modifyIdx xs n f

/-- `parent.append(node_id, arena)` for a node that has no parent yet: set
the child's parent link and record it as the last child of `t`. -/
def appendChild (a : ArenaM T) (t id : Nat) : ArenaM T :=
  modifyIdx (modifyIdx a id fun nd => { nd with parent := some t }) t
    fun nd => { nd with children := nd.children ++ [id] }

/-- The parent link of the node `id`, if the slot exists. -/
def parentOf (a : ArenaM T) (id : Nat) : Option Nat :=
  match a[id]? with
  | some nd => nd.parent
  | none => none

/-- The ordered children of the node `id`. -/
def childrenOf (a : ArenaM T) (id : Nat) : List Nat :=
  match a[id]? with
  | some nd => nd.children
  | none => []

/-- `pub struct WalkTree<T>` (src/lib.rs lines 13-16). -/
structure WalkTreeM (T : Type) where
  arena : ArenaM T
  map : BiMapM
deriving DecidableEq

/-- One iteration of the `for (path, node_id) in map.iter()` loop of
`WalkTree::build` (src/lib.rs lines 23-28): look up the path's parent
directory in the map and, when present, append the node to it. -/
def buildStep (m : BiMapM) (a : ArenaM T) (pr : PathM × Nat) : ArenaM T :=
  match parentDir pr.1 with
  | none => a
  | some pp =>
    match getByLeft m pp with
    | none => a
    | some t => appendChild a t pr.2

def buildFold (m : BiMapM) (order : List (PathM × Nat)) (a : ArenaM T) : ArenaM T :=
  order.foldl (buildStep m) a

/-- `WalkTree::build` (src/lib.rs lines 22-31).  `map.iter()` enumerates
the hash-backed bimap in an unspecified order; that order is the explicit
parameter `order` (theorems quantify over enumerations of `m`). -/
def build (a : ArenaM T) (m : BiMapM) (order : List (PathM × Nat)) : WalkTreeM T :=
  { arena := buildFold m order a, map := m }

/-- `WalkTree::get_path_by_node_id` (src/lib.rs lines 32-34). -/
def getPathByNodeId (t : WalkTreeM T) (id : Nat) : Option PathM :=
  getByRight t.map id

/-- `WalkTree::get_node_id_by_path` (src/lib.rs lines 35-37). -/
def getNodeIdByPath (t : WalkTreeM T) (p : PathM) : Option Nat :=
  getByLeft t.map p

/-- `WalkTree::get_item_by_node_id` (src/lib.rs lines 44-49). -/
def getItemByNodeId (t : WalkTreeM T) (id : Nat) : Option T :=
  match t.arena[id]? with
  | some nd => some nd.data
  | none => none

/-- `WalkTree::get_item_by_path` (src/lib.rs lines 38-43). -/
def getItemByPath (t : WalkTreeM T) (p : PathM) : Option T :=
  match getNodeIdByPath t p with
  | some id => getItemByNodeId t id
  | none => none

/-- `struct WalkTreeNode<T>` (src/lib.rs lines 87-91). -/
structure WalkTreeNodeM (T : Type) where
  path : PathM
  data : T
deriving DecidableEq

/-- `pub struct WalkTreeBuilder<T>` (src/lib.rs lines 66-71). -/
structure WalkTreeBuilderM (T : Type) where
  rootDir : PathM
  fnFilter : Option (DirEntryM → Bool)
  fnMap : Option (DirEntryM → T)
  walkdirModes : List WalkDirOptionM

/-- `WalkTreeBuilder::load` (src/lib.rs lines 124-131). -/
def load (p : PathM) : WalkTreeBuilderM T :=
  { rootDir := p, fnFilter := none, fnMap := none, walkdirModes := [] }

/-- `WalkTreeBuilder::with_map` (src/lib.rs lines 132-137). -/
def withMap (b : WalkTreeBuilderM T) (f : DirEntryM → T) : WalkTreeBuilderM T :=
  { b with fnMap := some f }

/-- `WalkTreeBuilder::with_fliter` (src/lib.rs lines 138-143). -/
def withFliter (b : WalkTreeBuilderM T) (f : DirEntryM → Bool) : WalkTreeBuilderM T :=
  { b with fnFilter := some f }

/-- `WalkTreeBuilder::with_walkdir_mode` (src/lib.rs lines 144-147). -/
def withWalkdirMode (b : WalkTreeBuilderM T) (m : WalkDirOptionM) : WalkTreeBuilderM T :=
  { b with walkdirModes := b.walkdirModes ++ [m] }

/-- `WalkTreeBuilder::apply_fiter_fn` (src/lib.rs lines 162-171).  The
pruning a present `fn_filter` performs happens inside the provider
(`filter_entry`, modelled by `walkF` below); at the stream level both
branches end with `filter_map(|x| x.ok())`, which silently drops the
entries the provider could not produce. -/
def applyFiterFn (b : WalkTreeBuilderM T)
    (stream : List (Except WalkdirErrorM DirEntryM)) : List DirEntryM :=
  match b.fnFilter with
  | some _ => stream.filterMap resultOk
  | none => stream.filterMap resultOk

/-- `WalkTreeBuilder::apply_map_fn` (src/lib.rs lines 172-179): maps every
surviving entry through `self.fn_map.unwrap()`.  `unwrap` on a `None`
mapper aborts the process; a diverging (panicking) run is modelled as
`none`.  When the entry list is empty the closure is never invoked, so no
abort happens even without a mapper. -/
def applyMapFn (fnMap : Option (DirEntryM → T)) :
    List DirEntryM → Option (List (WalkTreeNodeM T))
  | [] => some []
  | v :: rest =>
    match fnMap.map fun f => { path := v.path, data := f v } with
    | none => none
    | some nd =>
      match applyMapFn fnMap rest with
      | none => none
      | some nds => some (nd :: nds)

/-- The pair list `entries.map(|e| (e.path.clone(), arena.new_node(e.data)))`
(src/lib.rs line 157): `new_node` hands out identities `i`, `i+1`, ... in
entry order. -/
def walkPairsAux : Nat → List (WalkTreeNodeM T) → List (PathM × Nat)
  | _, [] => []
  | i, nd :: rest => (nd.path, i) :: walkPairsAux (i + 1) rest

def walkPairs (nodes : List (WalkTreeNodeM T)) : List (PathM × Nat) :=
  walkPairsAux 0 nodes

/-- The arena after pass 1 of `walk`: one slot per entry, in allocation
order, no links yet. -/
def walkArena (nodes : List (WalkTreeNodeM T)) : ArenaM T :=
  nodes.map fun nd => { data := nd.data }

/-- `WalkTreeBuilder::walk` (src/lib.rs lines 148-161).  `stream` is the
sequence the (external, already `filter_entry`-pruned) walkdir iterator
yields; `order` is the iteration order of the hash-backed bimap inside
`WalkTree::build`.  The result is `none` when the run aborts (the `unwrap`
inside `apply_map_fn`), otherwise `some` of what `walk` returns. -/
def walk (b : WalkTreeBuilderM T) (stream : List (Except WalkdirErrorM DirEntryM))
    (order : List (PathM × Nat)) : Option (Except WalkTreeErrorM (WalkTreeM T)) :=
  match checkCompability b.walkdirModes with
  | .error e => some (.error e)
  | .ok _ =>
    let entries := applyFiterFn b stream
    match applyMapFn b.fnMap entries with
    | none => none
    | some nodes =>
      some (.ok (build (walkArena nodes) (collectBiMap (walkPairs nodes)) order))

/-- One query of the read-only surface of `WalkTree` (src/lib.rs lines
32-49). -/
inductive QueryM : Type where
  | nodeByPath (p : PathM)
  | pathByNode (id : Nat)
  | itemByPath (p : PathM)
  | itemByNode (id : Nat)

/-- Run one query against the tree.  Every getter takes `&self` and only
reads `self.map` and `self.arena`, so the state handed back is the state
handed in. -/
def runQuery (t : WalkTreeM T) (q : QueryM) :
    Option (PathM ⊕ Nat ⊕ T) × WalkTreeM T :=
  match q with
  | .nodeByPath p => ((getNodeIdByPath t p).map fun id => Sum.inr (Sum.inl id), t)
  | .pathByNode id => ((getPathByNodeId t id).map Sum.inl, t)
  | .itemByPath p => ((getItemByPath t p).map fun x => Sum.inr (Sum.inr x), t)
  | .itemByNode id => ((getItemByNodeId t id).map fun x => Sum.inr (Sum.inr x), t)

/-- The tree state after a sequence of queries. -/
def runQueries (t : WalkTreeM T) (qs : List QueryM) : WalkTreeM T :=
  qs.foldl (fun s q => (runQuery s q).2) t

mutual
/-- Modelled from the spec: a filesystem subtree as the external Traversal
Provider sees it (the actual directory walking is out of scope of the
repository; spec section 6 gives the provider contract). -/
inductive FSTree : Type where
  | file : String → FSTree
  | dir : String → FSForest → FSTree

/-- Modelled from the spec: an ordered list of sibling subtrees. -/
inductive FSForest : Type where
  | nil : FSForest
  | cons : FSTree → FSForest → FSForest
end

/-- The name (last path component) of a subtree's root entry. -/
def FSTree.name : FSTree → String
  | .file n => n
  | .dir n _ => n

/-- The names of the roots of a forest. -/
def forestNames : FSForest → List String
  | .nil => []
  | .cons t ts => t.name :: forestNames ts

/-- No duplicate in a list of names. -/
def nodupB : List String → Bool
  | [] => true
  | x :: xs => !(xs.contains x) && nodupB xs

mutual
/-- Modelled from the spec: a well-formed filesystem — at every directory
the sibling names are pairwise distinct (a real filesystem cannot hold two
entries of the same name in one directory). -/
def wfT : FSTree → Bool
  | .file _ => true
  | .dir _ cs => nodupB (forestNames cs) && wfF cs

def wfF : FSForest → Bool
  | .nil => true
  | .cons t ts => wfT t && wfF ts
end

mutual
/-- Modelled from the spec: the provider's depth-first enumeration of a
subtree placed under the prefix `pre`, with `walkdir`'s
`filter_entry(pred)` prune semantics (spec sections 4.2 and 6): a rejected
directory entry is not yielded and not descended into; a rejected file
entry is not yielded. -/
def walkF (pred : DirEntryM → Bool) (pre : PathM) : FSTree → List DirEntryM
  | .file n =>
    if pred { path := pre ++ [n], isDir := false } then
      [{ path := pre ++ [n], isDir := false }]
    else []
  | .dir n cs =>
    if pred { path := pre ++ [n], isDir := true } then
      { path := pre ++ [n], isDir := true } :: walkForest pred (pre ++ [n]) cs
    else []

def walkForest (pred : DirEntryM → Bool) (pre : PathM) : FSForest → List DirEntryM
  | .nil => []
  | .cons t ts => walkF pred pre t ++ walkForest pred pre ts
end

mutual
/-- The subtree placed under prefix `pre` holds a directory entry at the
absolute path `d`. -/
def hasDirAtT (pre : PathM) : FSTree → PathM → Bool
  | .file _, _ => false
  | .dir n cs, d => (decide (pre ++ [n] = d)) || hasDirAtF (pre ++ [n]) cs d

def hasDirAtF (pre : PathM) : FSForest → PathM → Bool
  | .nil, _ => false
  | .cons t ts, d => hasDirAtT pre t d || hasDirAtF pre ts d
end

/-! ### Sample inputs used by concrete theorems and witnesses -/

/-- The identity-style mapper the repository's own test uses (store the
path-derived data). -/
def pathData : DirEntryM → PathM := fun e => e.path

def sampleBuilder : WalkTreeBuilderM PathM := withMap (load []) pathData

/-- A provider stream for the spec's running example: root `/r` with
children `/r/a` and `/r/b`. -/
def sampleStream : List (Except WalkdirErrorM DirEntryM) :=
  [Except.ok { path := ["r"], isDir := true },
   Except.ok { path := ["r", "a"], isDir := false },
   Except.ok { path := ["r", "b"], isDir := false }]

/-- A provider stream yielding the same path `/r/a` twice. -/
def sampleDupStream : List (Except WalkdirErrorM DirEntryM) :=
  [Except.ok { path := ["r", "a"], isDir := false },
   Except.ok { path := ["r", "a"], isDir := false }]

/-- One enumeration of the bimap collected from `sampleStream`. -/
def sampleOrder1 : BiMapM := [(["r"], 0), (["r", "a"], 1), (["r", "b"], 2)]

/-- Another enumeration of the same bimap (same pairs, different order). -/
def sampleOrder2 : BiMapM := [(["r"], 0), (["r", "b"], 2), (["r", "a"], 1)]

def sampleTree1 : WalkTreeM PathM :=
  { arena := [⟨["r"], none, [1, 2]⟩, ⟨["r", "a"], some 0, []⟩, ⟨["r", "b"], some 0, []⟩],
    map := sampleOrder1 }

def sampleTree2 : WalkTreeM PathM :=
  { arena := [⟨["r"], none, [2, 1]⟩, ⟨["r", "a"], some 0, []⟩, ⟨["r", "b"], some 0, []⟩],
    map := sampleOrder1 }

/-- The spec's running example filesystem: root `/r` holding directory
`/r/a` (with file `/r/a/x`) and file `/r/b`. -/
def sampleFS : FSTree :=
  .dir "r" (.cons (.dir "a" (.cons (.file "x") .nil)) (.cons (.file "b") .nil))

/-- A filter rejecting the directory `/r/a`. -/
def samplePred : DirEntryM → Bool := fun e => !(decide (e.path = ["r", "a"]))

/-- `samplePred` further rejecting the file `/r/b`. -/
def samplePred2 : DirEntryM → Bool := fun e =>
  samplePred e && !(decide (e = { path := ["r", "b"], isDir := false }))

/-- An enumeration of the bimap collected from the pruned walk of
`sampleFS`. -/
def sampleOrder3 : BiMapM := [(["r"], 0), (["r", "b"], 1)]

def sampleTree3 : WalkTreeM PathM :=
  { arena := [⟨["r"], none, [1]⟩, ⟨["r", "b"], some 0, []⟩], map := sampleOrder3 }

/-! ### Helper lemmas -/

theorem filterMap_resultOk_filter (s : List (Except WalkdirErrorM DirEntryM)) :
    (s.filter fun x => exceptIsOk x).filterMap resultOk = s.filterMap resultOk := by
  induction s with
  | nil => rfl
  | cons x s ih =>
    cases x with
    | ok e =>
      have hp : exceptIsOk (Except.ok e : Except WalkdirErrorM DirEntryM) = true := rfl
      have hr : resultOk (Except.ok e) = some e := rfl
      simp [List.filter_cons, hp, hr, ih]
    | error e =>
      have hp : exceptIsOk (Except.error e : Except WalkdirErrorM DirEntryM) = false := rfl
      have hr : resultOk (Except.error e) = none := rfl
      simp [List.filter_cons, hp, hr, ih]

theorem applyFiterFn_eq (b : WalkTreeBuilderM T)
    (stream : List (Except WalkdirErrorM DirEntryM)) :
    applyFiterFn b stream = stream.filterMap resultOk := by
  cases h : b.fnFilter <;> simp [applyFiterFn, h]

/-! ### Claims -/

/-- C2: the claim says that `walk()` with no mapper fails with a
`ConfigurationError` before any traversal I/O and does not panic.  The code
does the opposite: `apply_map_fn` calls `self.fn_map.unwrap()` on the first
entry, aborting the run (modelled as `none`), and with an empty entry
stream it quietly returns `Ok` — no configuration check ever happens and
`WalkTreeError` has no `ConfigurationError` variant at all. -/
theorem C2_missing_mapper_aborts :
    walk (load [] : WalkTreeBuilderM PathM) sampleStream [] = none ∧
    walk (load [] : WalkTreeBuilderM PathM) [] [] =
      some (Except.ok { arena := [], map := [] }) :=
  ⟨rfl, rfl⟩

/-- C3: the claim says two entries with the same path make `walk()` fail
with a `DuplicatePathError`.  The code instead returns `Ok`: the second
`BiMap::insert` silently overwrites the first pair (the first node stays
orphaned in the arena), and `WalkTreeError` has no variant to fail with. -/
theorem C3_duplicate_path_overwrites :
    walk sampleBuilder sampleDupStream [(["r", "a"], 1)] =
      some (Except.ok
        { arena := [{ data := ["r", "a"] }, { data := ["r", "a"] }],
          map := [(["r", "a"], 1)] }) :=
  rfl

/-- C4 counterexample: a stream holding one entry that the provider could
not produce (`Err`) yields `Ok` with an empty tree — the failure is
silently discarded, no `TraversalError` is reported, contradicting the
claim. -/
theorem C4_counterexample :
    walk sampleBuilder [Except.error { path := ["r", "x"] }] [] =
      some (Except.ok { arena := [], map := [] }) :=
  rfl

/-- C4 (amended): entries the provider could not produce are silently
dropped by `filter_map(|x| x.ok())` inside `apply_fiter_fn`: `walk()`
returns exactly what it would return had the provider never yielded the
failed entries, and no error is surfaced. -/
theorem C4_errors_silently_dropped (T : Type) (b : WalkTreeBuilderM T)
    (stream : List (Except WalkdirErrorM DirEntryM)) (order : List (PathM × Nat)) :
    walk b stream order = walk b (stream.filter fun x => exceptIsOk x) order := by
  simp only [walk, applyFiterFn_eq, filterMap_resultOk_filter]

/-- C1: the claim says repeated construction from a fixed input yields
identical sibling order.  `WalkTree::build` iterates `map.iter()` of the
hash-backed `BiMap`, so sibling order is the map's iteration order, not the
entry order: two legitimate enumerations of the very same collected bimap
(`sampleOrder2` is a permutation of `sampleOrder1`, which is the bimap
`walk` collects from `sampleStream`) produce the children of the root once
as `[1, 2]` and once as `[2, 1]`. -/
theorem C1_sibling_order_depends_on_map_iteration :
    List.Perm sampleOrder1 sampleOrder2 ∧
    walk sampleBuilder sampleStream sampleOrder1 = some (Except.ok sampleTree1) ∧
    walk sampleBuilder sampleStream sampleOrder2 = some (Except.ok sampleTree2) ∧
    sampleTree1.map = sampleTree2.map ∧
    childrenOf sampleTree1.arena 0 = [1, 2] ∧
    childrenOf sampleTree2.arena 0 = [2, 1] :=
  ⟨by decide, rfl, rfl, rfl, rfl, rfl⟩

/-- C8: every query operation (node by path, path by node, item by path,
item by node) only reads the tree: after any sequence of lookups the arena
and the index are the ones established at construction. -/
theorem C8_queries_leave_tree_unchanged (T : Type) (t : WalkTreeM T)
    (qs : List QueryM) :
    (runQueries t qs).arena = t.arena ∧ (runQueries t qs).map = t.map := by
  have h : ∀ (s : WalkTreeM T), runQueries s qs = s := by
    induction qs with
    | nil => intro s; rfl
    | cons q qs ih =>
      intro s
      have hq : (runQuery s q).2 = s := by cases q <;> rfl
      simp [runQueries, List.foldl] at ih ⊢
      rw [hq]
      exact ih s
  rw [h t]
  exact ⟨rfl, rfl⟩

/-- C9: `WalkTreeError` has no variants, so every terminating execution of
`walk()` returns `Ok`; failures can only abort (the `unwrap`), never return
`Err`. -/
theorem C9_walk_never_returns_err (T : Type) (b : WalkTreeBuilderM T)
    (stream : List (Except WalkdirErrorM DirEntryM)) (order : List (PathM × Nat))
    (res : Except WalkTreeErrorM (WalkTreeM T))
    (h : walk b stream order = some res) : exceptIsOk res = true := by
  simp only [walk, checkCompability] at h
  cases hm : applyMapFn b.fnMap (applyFiterFn b stream) with
  | none => rw [hm] at h; exact absurd h (by simp)
  | some nodes =>
    rw [hm] at h
    have : Except.ok (build (walkArena nodes) (collectBiMap (walkPairs nodes)) order) = res := by
      exact Option.some.inj h
    rw [← this]
    rfl

/-- C9 witness: a concrete terminating run of `walk` whose result is `Ok`. -/
theorem C9_walk_never_returns_err_witness :
    exceptIsOk (Except.ok { arena := [], map := [] } :
      Except WalkTreeErrorM (WalkTreeM PathM)) = true :=
  C9_walk_never_returns_err PathM sampleBuilder [] []
    (Except.ok { arena := [], map := [] }) rfl

/-! ### BiMap lemmas: `collect` keeps both key spaces duplicate-free -/

theorem mem_bimapInsert {m : BiMapM} {l : PathM} {r : Nat} {pr : PathM × Nat}
    (h : pr ∈ bimapInsert m l r) : pr ∈ m ∨ pr = (l, r) := by
  rcases List.mem_append.mp h with h | h
  · exact Or.inl (List.mem_of_mem_filter h)
  · exact Or.inr (List.mem_singleton.mp h)

theorem nodup_fst_bimapInsert {m : BiMapM} {l : PathM} {r : Nat}
    (h : (m.map Prod.fst).Nodup) : ((bimapInsert m l r).map Prod.fst).Nodup := by
  unfold bimapInsert
  rw [List.map_append]
  apply List.Nodup.append
  · exact h.sublist ((List.filter_sublist m).map Prod.fst)
  · simp
  · intro a ha hb
    rcases List.mem_map.mp ha with ⟨pr, hpr, rfl⟩
    have hf := List.of_mem_filter hpr
    have hbl : pr.1 = l := by simpa using hb
    rw [hbl] at hf
    simp at hf

theorem nodup_snd_bimapInsert {m : BiMapM} {l : PathM} {r : Nat}
    (h : (m.map Prod.snd).Nodup) : ((bimapInsert m l r).map Prod.snd).Nodup := by
  unfold bimapInsert
  rw [List.map_append]
  apply List.Nodup.append
  · exact h.sublist ((List.filter_sublist m).map Prod.snd)
  · simp
  · intro a ha hb
    rcases List.mem_map.mp ha with ⟨pr, hpr, rfl⟩
    have hf := List.of_mem_filter hpr
    have hbr : pr.2 = r := by simpa using hb
    rw [hbr] at hf
    simp at hf

theorem collect_props (pairs : List (PathM × Nat)) :
    ∀ acc : BiMapM, (acc.map Prod.fst).Nodup → (acc.map Prod.snd).Nodup →
      ((pairs.foldl (fun m pr => bimapInsert m pr.1 pr.2) acc).map Prod.fst).Nodup ∧
      ((pairs.foldl (fun m pr => bimapInsert m pr.1 pr.2) acc).map Prod.snd).Nodup ∧
      ∀ pr, pr ∈ pairs.foldl (fun m pr => bimapInsert m pr.1 pr.2) acc →
        pr ∈ acc ∨ pr ∈ pairs := by
  induction pairs with
  | nil => exact fun acc h1 h2 => ⟨h1, h2, fun pr h => Or.inl h⟩
  | cons q rest ih =>
    intro acc h1 h2
    obtain ⟨n1, n2, hmem⟩ :=
      ih (bimapInsert acc q.1 q.2) (nodup_fst_bimapInsert h1) (nodup_snd_bimapInsert h2)
    refine ⟨n1, n2, fun pr h => ?_⟩
    rcases hmem pr h with h | h
    · rcases mem_bimapInsert h with h | h
      · exact Or.inl h
      · exact Or.inr (by rw [h, Prod.mk.eta]; exact List.mem_cons_self q rest)
    · exact Or.inr (List.mem_cons_of_mem _ h)

theorem nodup_fst_collect (pairs : List (PathM × Nat)) :
    ((collectBiMap pairs).map Prod.fst).Nodup :=
  (collect_props pairs [] (by simp) (by simp)).1

theorem nodup_snd_collect (pairs : List (PathM × Nat)) :
    ((collectBiMap pairs).map Prod.snd).Nodup :=
  (collect_props pairs [] (by simp) (by simp)).2.1

theorem mem_collectBiMap {pairs : List (PathM × Nat)} {pr : PathM × Nat}
    (h : pr ∈ collectBiMap pairs) : pr ∈ pairs := by
  rcases (collect_props pairs [] (by simp) (by simp)).2.2 pr h with h | h
  · exact absurd h (List.not_mem_nil _)
  · exact h

/-! ### Lookup lemmas -/

theorem getByLeft_eq_some_of_mem :
    ∀ {m : BiMapM}, (m.map Prod.fst).Nodup → ∀ {p : PathM} {i : Nat},
      (p, i) ∈ m → getByLeft m p = some i := by
  intro m
  induction m with
  | nil => intro _ p i h; exact absurd h (List.not_mem_nil _)
  | cons pr rest ih =>
    intro hnd p i hmem
    rw [List.map_cons] at hnd
    rcases List.nodup_cons.mp hnd with ⟨hni, hndr⟩
    by_cases hc : pr.1 = p
    · have hpr : (p, i) = pr := by
        rcases List.mem_cons.mp hmem with h | h
        · exact h
        · exact absurd (by rw [hc]; exact List.mem_map_of_mem Prod.fst h) hni
      unfold getByLeft
      rw [List.find?_cons_of_pos _ (by simpa using hc)]
      rw [← hpr]
      rfl
    · have hrest : (p, i) ∈ rest := by
        rcases List.mem_cons.mp hmem with h | h
        · exact absurd (congrArg Prod.fst h.symm) hc
        · exact h
      unfold getByLeft
      rw [List.find?_cons_of_neg _ (by simpa using hc)]
      exact ih hndr hrest

theorem getByRight_eq_some_of_mem :
    ∀ {m : BiMapM}, (m.map Prod.snd).Nodup → ∀ {p : PathM} {i : Nat},
      (p, i) ∈ m → getByRight m i = some p := by
  intro m
  induction m with
  | nil => intro _ p i h; exact absurd h (List.not_mem_nil _)
  | cons pr rest ih =>
    intro hnd p i hmem
    rw [List.map_cons] at hnd
    rcases List.nodup_cons.mp hnd with ⟨hni, hndr⟩
    by_cases hc : pr.2 = i
    · have hpr : (p, i) = pr := by
        rcases List.mem_cons.mp hmem with h | h
        · exact h
        · exact absurd (by rw [hc]; exact List.mem_map_of_mem Prod.snd h) hni
      unfold getByRight
      rw [List.find?_cons_of_pos _ (by simpa using hc)]
      rw [← hpr]
      rfl
    · have hrest : (p, i) ∈ rest := by
        rcases List.mem_cons.mp hmem with h | h
        · exact absurd (congrArg Prod.snd h.symm) hc
        · exact h
      unfold getByRight
      rw [List.find?_cons_of_neg _ (by simpa using hc)]
      exact ih hndr hrest

theorem mem_of_getByLeft {m : BiMapM} {p : PathM} {i : Nat}
    (h : getByLeft m p = some i) : (p, i) ∈ m := by
  unfold getByLeft at h
  cases hf : m.find? (fun pr => decide (pr.1 = p)) with
  | none => rw [hf] at h; exact absurd h (by simp)
  | some pr =>
    rw [hf] at h
    have hmem := List.mem_of_find?_eq_some hf
    have hp : pr.1 = p := by have := List.find?_some hf; simpa using this
    have h2 : pr.2 = i := by simpa using h
    obtain ⟨x, y⟩ := pr
    dsimp at hp h2
    rw [← hp, ← h2]
    exact hmem

theorem mem_of_getByRight {m : BiMapM} {p : PathM} {i : Nat}
    (h : getByRight m i = some p) : (p, i) ∈ m := by
  unfold getByRight at h
  cases hf : m.find? (fun pr => decide (pr.2 = i)) with
  | none => rw [hf] at h; exact absurd h (by simp)
  | some pr =>
    rw [hf] at h
    have hmem := List.mem_of_find?_eq_some hf
    have hp : pr.2 = i := by have := List.find?_some hf; simpa using this
    have h2 : pr.1 = p := by simpa using h
    obtain ⟨x, y⟩ := pr
    dsimp at hp h2
    rw [← hp, ← h2]
    exact hmem

/-! ### Inverting `walk`, and size facts about the assembled arena -/

theorem walk_eq_ok {b : WalkTreeBuilderM T} {stream : List (Except WalkdirErrorM DirEntryM)}
    {order : List (PathM × Nat)} {t : WalkTreeM T}
    (h : walk b stream order = some (Except.ok t)) :
    ∃ nodes, applyMapFn b.fnMap (applyFiterFn b stream) = some nodes ∧
      t = build (walkArena nodes) (collectBiMap (walkPairs nodes)) order := by
  simp only [walk, checkCompability] at h
  cases hm : applyMapFn b.fnMap (applyFiterFn b stream) with
  | none => rw [hm] at h; exact absurd h (by simp)
  | some nodes =>
    rw [hm] at h
    exact ⟨nodes, rfl, (Except.ok.inj (Option.some.inj h)).symm⟩

theorem length_modifyIdx {α : Type _} :
    ∀ (l : List α) (i : Nat) (f : α → α), (modifyIdx l i f).length = l.length := by
  intro l
  induction l with
  | nil => intro i f; rfl
  | cons x xs ih =>
    intro i f
    cases i with
    | zero => rfl
    | succ n => simp [modifyIdx, ih]

theorem length_appendChild (a : ArenaM T) (t id : Nat) :
    (appendChild a t id).length = a.length := by
  simp [appendChild, length_modifyIdx]

theorem length_buildStep (m : BiMapM) (a : ArenaM T) (pr : PathM × Nat) :
    (buildStep m a pr).length = a.length := by
  cases hp : parentDir pr.1 with
  | none => simp [buildStep, hp]
  | some pp =>
    cases hg : getByLeft m pp with
    | none => simp [buildStep, hp, hg]
    | some t => simp [buildStep, hp, hg, length_appendChild]

theorem length_buildFold (m : BiMapM) :
    ∀ (order : List (PathM × Nat)) (a : ArenaM T),
      (buildFold m order a).length = a.length := by
  intro order
  induction order with
  | nil => intro a; rfl
  | cons pr rest ih =>
    intro a
    rw [show buildFold m (pr :: rest) a = buildFold m rest (buildStep m a pr) from rfl,
      ih, length_buildStep]

theorem snd_lt_of_mem_walkPairsAux :
    ∀ (ns : List (WalkTreeNodeM T)) (i : Nat) (pr : PathM × Nat),
      pr ∈ walkPairsAux i ns → pr.2 < i + ns.length := by
  intro ns
  induction ns with
  | nil => intro i pr h; exact absurd h (List.not_mem_nil _)
  | cons nd rest ih =>
    intro i pr h
    rcases List.mem_cons.mp h with h | h
    · rw [h]; simp
    · have := ih (i + 1) pr h
      simp only [List.length_cons]
      omega

theorem snd_lt_of_mem_walkPairs {ns : List (WalkTreeNodeM T)} {pr : PathM × Nat}
    (h : pr ∈ walkPairs ns) : pr.2 < ns.length := by
  have := snd_lt_of_mem_walkPairsAux ns 0 pr h
  omega

theorem length_walkArena (ns : List (WalkTreeNodeM T)) :
    (walkArena ns).length = ns.length := by
  simp [walkArena]

theorem parentOf_walkArena (ns : List (WalkTreeNodeM T)) (id : Nat) :
    parentOf (walkArena ns) id = none := by
  unfold parentOf walkArena
  rw [List.getElem?_map]
  cases ns[id]? <;> rfl

/-- C6: for every constructed tree the path to node-identity index is a
bijection: a path is mapped to a node identity exactly when that identity
is mapped back to the path, hence both round trips
`node_by_path(path_by_node(id)) = Some(id)` and
`path_by_node(node_by_path(p)) = Some(p)` hold for every pair present. -/
theorem C6_bijection (T : Type) (b : WalkTreeBuilderM T)
    (stream : List (Except WalkdirErrorM DirEntryM)) (order : List (PathM × Nat))
    (t : WalkTreeM T) (h : walk b stream order = some (Except.ok t))
    (p : PathM) (id : Nat) :
    getNodeIdByPath t p = some id ↔ getPathByNodeId t id = some p := by
  obtain ⟨nodes, -, ht⟩ := walk_eq_ok h
  subst ht
  simp only [getNodeIdByPath, getPathByNodeId, build]
  constructor
  · intro hx
    exact getByRight_eq_some_of_mem (nodup_snd_collect (walkPairs nodes)) (mem_of_getByLeft hx)
  · intro hx
    exact getByLeft_eq_some_of_mem (nodup_fst_collect (walkPairs nodes)) (mem_of_getByRight hx)

/-- C6 witness: in the sample tree, `/r/a` maps to node 1 and back. -/
theorem C6_bijection_witness :
    getNodeIdByPath sampleTree1 ["r", "a"] = some 1 ↔
      getPathByNodeId sampleTree1 1 = some ["r", "a"] :=
  C6_bijection PathM sampleBuilder sampleStream sampleOrder1 sampleTree1 rfl ["r", "a"] 1

/-- C10: in every tree `walk()` returns, each node identity stored in the
index points into the tree's own arena, so `get_item_by_node_id` answers
`Some` for every identity present and `get_item_by_path` answers `Some`
for exactly the paths present in the index. -/
theorem C10_index_refers_into_arena (T : Type) (b : WalkTreeBuilderM T)
    (stream : List (Except WalkdirErrorM DirEntryM)) (order : List (PathM × Nat))
    (t : WalkTreeM T) (h : walk b stream order = some (Except.ok t)) :
    (∀ p id, (p, id) ∈ t.map →
      id < t.arena.length ∧ getItemByNodeId t id ≠ none ∧ getItemByPath t p ≠ none) ∧
    ∀ q, (getItemByPath t q).isSome = (getNodeIdByPath t q).isSome := by
  obtain ⟨nodes, -, ht⟩ := walk_eq_ok h
  subst ht
  have hlen : (build (walkArena nodes) (collectBiMap (walkPairs nodes)) order).arena.length
      = nodes.length := by
    simp only [build]
    rw [length_buildFold, length_walkArena]
  have hitem : ∀ id, id < nodes.length →
      getItemByNodeId (build (walkArena nodes) (collectBiMap (walkPairs nodes)) order) id
        ≠ none := by
    intro id hid
    unfold getItemByNodeId
    cases hx : (build (walkArena nodes) (collectBiMap (walkPairs nodes)) order).arena[id]? with
    | none =>
      rw [List.getElem?_eq_none_iff, hlen] at hx
      omega
    | some nd => simp
  have hmem_lt : ∀ (p : PathM) (id : Nat),
      (p, id) ∈ collectBiMap (walkPairs nodes) → id < nodes.length := by
    intro p id hm
    exact snd_lt_of_mem_walkPairs (mem_collectBiMap hm)
  refine ⟨fun p id hm => ⟨?_, ?_, ?_⟩, fun q => ?_⟩
  · rw [hlen]
    exact hmem_lt p id hm
  · exact hitem id (hmem_lt p id hm)
  · unfold getItemByPath
    rw [show getNodeIdByPath (build (walkArena nodes) (collectBiMap (walkPairs nodes)) order) p
        = getByLeft (collectBiMap (walkPairs nodes)) p from rfl]
    rw [getByLeft_eq_some_of_mem (nodup_fst_collect (walkPairs nodes)) hm]
    exact hitem id (hmem_lt p id hm)
  · unfold getItemByPath
    cases hq : getNodeIdByPath (build (walkArena nodes) (collectBiMap (walkPairs nodes)) order) q
      with
    | none => rfl
    | some j =>
      have hjm : (q, j) ∈ collectBiMap (walkPairs nodes) := mem_of_getByLeft hq
      have hj := hitem j (hmem_lt q j hjm)
      cases hx : getItemByNodeId (build (walkArena nodes) (collectBiMap (walkPairs nodes)) order) j
        with
      | none => exact absurd hx hj
      | some v => simp [hx]

/-- C10 witness: node 1 of the sample tree lies inside the arena and the
lookups answer `Some`. -/
theorem C10_index_refers_into_arena_witness :
    1 < sampleTree1.arena.length ∧ getItemByPath sampleTree1 ["r", "a"] ≠ none :=
  ⟨((C10_index_refers_into_arena PathM sampleBuilder sampleStream sampleOrder1 sampleTree1
      rfl).1 ["r", "a"] 1 (by decide)).1,
   ((C10_index_refers_into_arena PathM sampleBuilder sampleStream sampleOrder1 sampleTree1
      rfl).1 ["r", "a"] 1 (by decide)).2.2⟩

/-! ### How `build` sets the parent links -/

theorem getElem?_modifyIdx_ne {α : Type _} :
    ∀ (l : List α) (i : Nat) (f : α → α) (j : Nat), j ≠ i →
      (modifyIdx l i f)[j]? = l[j]? := by
  intro l
  induction l with
  | nil => intro i f j h; rfl
  | cons x xs ih =>
    intro i f j h
    cases i with
    | zero =>
      cases j with
      | zero => exact absurd rfl h
      | succ j => simp [modifyIdx]
    | succ i =>
      cases j with
      | zero => simp [modifyIdx]
      | succ j => simpa [modifyIdx] using ih i f j (by omega)

theorem getElem?_modifyIdx_eq {α : Type _} :
    ∀ (l : List α) (i : Nat) (f : α → α), (modifyIdx l i f)[i]? = (l[i]?).map f := by
  intro l
  induction l with
  | nil => intro i f; rfl
  | cons x xs ih =>
    intro i f
    cases i with
    | zero => simp [modifyIdx]
    | succ i => simpa [modifyIdx] using ih i f

theorem parentOf_appendChild_ne (a : ArenaM T) (t id : Nat) {j : Nat} (h : j ≠ id) :
    parentOf (appendChild a t id) j = parentOf a j := by
  unfold parentOf appendChild
  by_cases hj : j = t
  · subst hj
    rw [getElem?_modifyIdx_eq, getElem?_modifyIdx_ne _ _ _ _ h]
    cases a[j]? with
    | none => rfl
    | some nd => rfl
  · rw [getElem?_modifyIdx_ne _ _ _ _ hj, getElem?_modifyIdx_ne _ _ _ _ h]

theorem parentOf_appendChild_self (a : ArenaM T) (t id : Nat) (h : id < a.length) :
    parentOf (appendChild a t id) id = some t := by
  unfold parentOf appendChild
  by_cases ht : t = id
  · subst ht
    rw [getElem?_modifyIdx_eq, getElem?_modifyIdx_eq, List.getElem?_eq_getElem h]
    rfl
  · rw [getElem?_modifyIdx_ne _ _ _ _ (fun hh => ht hh.symm), getElem?_modifyIdx_eq,
      List.getElem?_eq_getElem h]
    rfl

theorem parentOf_buildStep_ne (m : BiMapM) (a : ArenaM T) (pr : PathM × Nat) {j : Nat}
    (h : j ≠ pr.2) : parentOf (buildStep m a pr) j = parentOf a j := by
  cases hp : parentDir pr.1 with
  | none => simp [buildStep, hp]
  | some pp =>
    cases hg : getByLeft m pp with
    | none => simp [buildStep, hp, hg]
    | some t =>
      simp only [buildStep, hp, hg]
      exact parentOf_appendChild_ne a t pr.2 h

theorem parentOf_buildStep_self (m : BiMapM) (a : ArenaM T) (p : PathM) (i : Nat)
    (hlt : i < a.length) :
    parentOf (buildStep m a (p, i)) i =
      match (parentDir p).bind (getByLeft m) with
      | some t => some t
      | none => parentOf a i := by
  cases hp : parentDir p with
  | none => simp [buildStep, hp]
  | some pp =>
    cases hg : getByLeft m pp with
    | none => simp [buildStep, hp, hg]
    | some t =>
      simp only [buildStep, hp, hg, Option.some_bind]
      exact parentOf_appendChild_self a t i hlt

theorem parentOf_buildFold_not_mem (m : BiMapM) :
    ∀ (order : List (PathM × Nat)) (a : ArenaM T) (j : Nat),
      (∀ pr ∈ order, pr.2 ≠ j) → parentOf (buildFold m order a) j = parentOf a j := by
  intro order
  induction order with
  | nil => intro a j h; rfl
  | cons pr rest ih =>
    intro a j h
    rw [show buildFold m (pr :: rest) a = buildFold m rest (buildStep m a pr) from rfl]
    rw [ih (buildStep m a pr) j fun pr' h' => h pr' (List.mem_cons_of_mem _ h')]
    exact parentOf_buildStep_ne m a pr (Ne.symm (h pr (List.mem_cons_self _ _)))

theorem parentOf_buildFold_mem (m : BiMapM) :
    ∀ (order : List (PathM × Nat)) (a : ArenaM T) (p : PathM) (id : Nat),
      (p, id) ∈ order → (order.map Prod.snd).Nodup →
      (∀ pr ∈ order, pr.2 < a.length) → parentOf a id = none →
      parentOf (buildFold m order a) id = (parentDir p).bind (getByLeft m) := by
  intro order
  induction order with
  | nil => intro a p id h; exact absurd h (List.not_mem_nil _)
  | cons pr rest ih =>
    intro a p id hmem hnd hbound hinit
    rw [List.map_cons] at hnd
    rcases List.nodup_cons.mp hnd with ⟨hni, hndr⟩
    rw [show buildFold m (pr :: rest) a = buildFold m rest (buildStep m a pr) from rfl]
    by_cases hid : pr.2 = id
    · have hpr : pr = (p, id) := by
        rcases List.mem_cons.mp hmem with h | h
        · exact h.symm
        · exact absurd (by rw [hid]; exact List.mem_map_of_mem Prod.snd h) hni
      have hrest : ∀ pr' ∈ rest, pr'.2 ≠ id := by
        intro pr' h' he
        exact hni (by rw [hid, ← he]; exact List.mem_map_of_mem Prod.snd h')
      rw [parentOf_buildFold_not_mem m rest (buildStep m a pr) id hrest, hpr]
      have hb2 : id < a.length := by
        have := hbound pr (List.mem_cons_self _ _)
        rw [hpr] at this
        exact this
      rw [parentOf_buildStep_self m a p id hb2]
      cases hb : (parentDir p).bind (getByLeft m) with
      | none => simp [hb, hinit]
      | some tt => simp [hb]
    · have hmem' : (p, id) ∈ rest := by
        rcases List.mem_cons.mp hmem with h | h
        · exact absurd (congrArg Prod.snd h.symm) hid
        · exact h
      have hbound' : ∀ pr' ∈ rest, pr'.2 < (buildStep m a pr).length := by
        intro pr' h'
        rw [length_buildStep]
        exact hbound pr' (List.mem_cons_of_mem _ h')
      have hinit' : parentOf (buildStep m a pr) id = none := by
        rw [parentOf_buildStep_ne m a pr fun hh => hid hh.symm]
        exact hinit
      exact ih (buildStep m a pr) p id hmem' hndr hbound' hinit'

/-- C5: in every constructed tree, a node's parent edge is exactly what the
index dictates: for every (path, id) pair present, the parent link of `id`
is the node the index holds at the path's parent directory, and when the
parent directory is absent from the index (or the path is the filesystem
root) the node is left a root with no parent edge. -/
theorem C5_parent_edges (T : Type) (b : WalkTreeBuilderM T)
    (stream : List (Except WalkdirErrorM DirEntryM)) (order : List (PathM × Nat))
    (t : WalkTreeM T) (h : walk b stream order = some (Except.ok t))
    (horder : List.Perm order t.map) :
    ∀ p id, (p, id) ∈ t.map →
      parentOf t.arena id = (parentDir p).bind (getByLeft t.map) := by
  obtain ⟨nodes, -, ht⟩ := walk_eq_ok h
  subst ht
  intro p id hm
  have hm' : (p, id) ∈ collectBiMap (walkPairs nodes) := hm
  have horder' : List.Perm order (collectBiMap (walkPairs nodes)) := horder
  show parentOf (buildFold (collectBiMap (walkPairs nodes)) order (walkArena nodes)) id = _
  apply parentOf_buildFold_mem
  · exact horder'.mem_iff.mpr hm'
  · exact ((horder'.map Prod.snd).nodup_iff).mpr (nodup_snd_collect (walkPairs nodes))
  · intro pr hpr
    rw [length_walkArena]
    exact snd_lt_of_mem_walkPairs (mem_collectBiMap (horder'.mem_iff.mp hpr))
  · exact parentOf_walkArena nodes id

/-- C5 witness: in the sample tree node 1 (path `/r/a`) hangs under the
node the index holds for `/r`. -/
theorem C5_parent_edges_witness :
    parentOf sampleTree1.arena 1 =
      (parentDir ["r", "a"]).bind (getByLeft sampleTree1.map) :=
  C5_parent_edges PathM sampleBuilder sampleStream sampleOrder1 sampleTree1 rfl
    (by decide) ["r", "a"] 1 (by decide)

/-! ### Prune semantics of the traversal provider -/

theorem append_singleton_pfx_inj {pre : PathM} {a b : String} {x : PathM}
    (h1 : (pre ++ [a]) <+: x) (h2 : (pre ++ [b]) <+: x) : a = b := by
  obtain ⟨s1, hs1⟩ := h1
  obtain ⟨s2, hs2⟩ := h2
  rw [List.append_assoc] at hs1 hs2
  have h3 := List.append_cancel_left (hs1.trans hs2.symm)
  have h4 := congrArg List.head? h3
  simpa using h4

mutual
theorem walkF_pfx : ∀ (pred : DirEntryM → Bool) (pre : PathM) (tr : FSTree)
    (e : DirEntryM), e ∈ walkF pred pre tr → (pre ++ [tr.name]) <+: e.path
  | pred, pre, .file n, e, h => by
    revert h
    simp only [walkF]
    split
    · intro h
      rw [List.mem_singleton.mp h]
      exact ⟨[], by simp [FSTree.name]⟩
    · intro h
      exact absurd h (List.not_mem_nil _)
  | pred, pre, .dir n cs, e, h => by
    revert h
    simp only [walkF]
    split
    · intro h
      rcases List.mem_cons.mp h with h | h
      · rw [h]
        exact ⟨[], by simp [FSTree.name]⟩
      · obtain ⟨nm, hnm, hpfx⟩ := walkForest_pfx pred (pre ++ [n]) cs e h
        exact (List.prefix_append _ _).trans hpfx
    · intro h
      exact absurd h (List.not_mem_nil _)

theorem walkForest_pfx : ∀ (pred : DirEntryM → Bool) (pre : PathM) (ts : FSForest)
    (e : DirEntryM), e ∈ walkForest pred pre ts →
      ∃ nm, nm ∈ forestNames ts ∧ (pre ++ [nm]) <+: e.path
  | pred, pre, .nil, e, h => by simp [walkForest] at h
  | pred, pre, .cons t ts, e, h => by
    rcases List.mem_append.mp (by simpa [walkForest] using h) with h | h
    · exact ⟨t.name, List.mem_cons_self _ _, walkF_pfx pred pre t e h⟩
    · obtain ⟨nm, hnm, hp⟩ := walkForest_pfx pred pre ts e h
      exact ⟨nm, List.mem_cons_of_mem _ hnm, hp⟩
end

mutual
theorem hasDirAtT_pfx : ∀ (pre : PathM) (tr : FSTree) (d : PathM),
    hasDirAtT pre tr d = true → (pre ++ [tr.name]) <+: d
  | pre, .file n, d, h => by simp [hasDirAtT] at h
  | pre, .dir n cs, d, h => by
    rw [hasDirAtT, Bool.or_eq_true] at h
    rcases h with h | h
    · exact ⟨[], by simp [FSTree.name, of_decide_eq_true h]⟩
    · obtain ⟨nm, hnm, hp⟩ := hasDirAtF_pfx (pre ++ [n]) cs d h
      exact (List.prefix_append _ _).trans hp

theorem hasDirAtF_pfx : ∀ (pre : PathM) (ts : FSForest) (d : PathM),
    hasDirAtF pre ts d = true → ∃ nm, nm ∈ forestNames ts ∧ (pre ++ [nm]) <+: d
  | pre, .nil, d, h => by simp [hasDirAtF] at h
  | pre, .cons t ts, d, h => by
    rw [hasDirAtF, Bool.or_eq_true] at h
    rcases h with h | h
    · exact ⟨t.name, List.mem_cons_self _ _, hasDirAtT_pfx pre t d h⟩
    · obtain ⟨nm, hnm, hp⟩ := hasDirAtF_pfx pre ts d h
      exact ⟨nm, List.mem_cons_of_mem _ hnm, hp⟩
end

theorem nodupB_cons {x : String} {xs : List String} (h : nodupB (x :: xs) = true) :
    x ∉ xs ∧ nodupB xs = true := by
  rw [nodupB, Bool.and_eq_true, Bool.not_eq_true'] at h
  refine ⟨fun hmem => ?_, h.2⟩
  rw [List.contains_eq_any_beq] at h
  have : xs.any (x == ·) = true := List.any_eq_true.mpr ⟨x, hmem, by simp⟩
  rw [this] at h
  exact Bool.noConfusion h.1
mutual
theorem walkF_prune : ∀ (pred : DirEntryM → Bool) (pre : PathM) (tr : FSTree)
    (d : PathM), wfT tr = true → hasDirAtT pre tr d = true →
    pred { path := d, isDir := true } = false →
    ∀ e ∈ walkF pred pre tr, ¬ (d <+: e.path)
  | pred, pre, .file n, d, hwf, hdir, hrej => by simp [hasDirAtT] at hdir
  | pred, pre, .dir n cs, d, hwf, hdir, hrej => by
    rw [wfT, Bool.and_eq_true] at hwf
    by_cases heq : pre ++ [n] = d
    · intro e h
      rw [walkF, heq, hrej] at h
      simp at h
    · have hdirF : hasDirAtF (pre ++ [n]) cs d = true := by
        rw [hasDirAtT, Bool.or_eq_true] at hdir
        rcases hdir with h | h
        · exact absurd (of_decide_eq_true h) heq
        · exact h
      intro e h hpfx
      by_cases hacc : pred { path := pre ++ [n], isDir := true } = true
      · rw [walkF] at h
        rw [hacc] at h
        simp only [if_true] at h
        rcases List.mem_cons.mp h with h | h
        · obtain ⟨nm, hnm, hp⟩ := hasDirAtF_pfx (pre ++ [n]) cs d hdirF
          have h1 : (pre ++ [n]).length + 1 ≤ d.length := by
            have := hp.length_le
            simpa using this
          have h2 : d.length ≤ (pre ++ [n]).length := by
            have := hpfx.length_le
            rw [h] at this
            simpa using this
          omega
        · exact walkForest_prune pred (pre ++ [n]) cs d hwf.2 hwf.1 hdirF hrej e h hpfx
      · rw [walkF, Bool.eq_false_iff.mpr hacc] at h
        simp at h

theorem walkForest_prune : ∀ (pred : DirEntryM → Bool) (pre : PathM) (ts : FSForest)
    (d : PathM), wfF ts = true → nodupB (forestNames ts) = true →
    hasDirAtF pre ts d = true → pred { path := d, isDir := true } = false →
    ∀ e ∈ walkForest pred pre ts, ¬ (d <+: e.path)
  | pred, pre, .nil, d, _, _, hdir, _ => by simp [hasDirAtF] at hdir
  | pred, pre, .cons t ts, d, hwf, hnd, hdir, hrej => by
    rw [wfF, Bool.and_eq_true] at hwf
    obtain ⟨hnmem, hnd2⟩ := nodupB_cons (by rw [forestNames] at hnd; exact hnd)
    intro e h hpfx
    rw [hasDirAtF, Bool.or_eq_true] at hdir
    rcases List.mem_append.mp (by rw [walkForest] at h; exact h) with he | he
    · rcases hdir with hd | hd
      · exact walkF_prune pred pre t d hwf.1 hd hrej e he hpfx
      · obtain ⟨nm, hnm, hp⟩ := hasDirAtF_pfx pre ts d hd
        have hep := walkF_pfx pred pre t e he
        have hnn : nm = t.name := append_singleton_pfx_inj (hp.trans hpfx) hep
        exact hnmem (hnn ▸ hnm)
    · rcases hdir with hd | hd
      · obtain ⟨nm, hnm, hp⟩ := walkForest_pfx pred pre ts e he
        have hdp := hasDirAtT_pfx pre t d hd
        have hnn : t.name = nm := append_singleton_pfx_inj (hdp.trans hpfx) hp
        exact hnmem (hnn ▸ hnm)
      · exact walkForest_prune pred pre ts d hwf.2 hnd2 hd hrej e he hpfx
end

mutual
theorem walkF_file_rm : ∀ (pred pred2 : DirEntryM → Bool) (fl : PathM),
    (∀ e, e ≠ ({ path := fl, isDir := false } : DirEntryM) → pred2 e = pred e) →
    pred2 { path := fl, isDir := false } = false → ∀ (pre : PathM) (tr : FSTree),
    walkF pred2 pre tr = (walkF pred pre tr).filter fun e =>
      !(decide (e = { path := fl, isDir := false }))
  | pred, pred2, fl, hagree, hfl, pre, .file n => by
    by_cases hp : pre ++ [n] = fl
    · rw [walkF, walkF, hp, hfl]
      cases hq : pred { path := fl, isDir := false } <;> simp [hq]
    · have hag : pred2 { path := pre ++ [n], isDir := false }
          = pred { path := pre ++ [n], isDir := false } :=
        hagree _ fun hcon => hp (congrArg DirEntryM.path hcon)
      rw [walkF, walkF, hag]
      cases hq : pred { path := pre ++ [n], isDir := false } with
      | false => simp [hq]
      | true => simp [hq, DirEntryM.mk.injEq, hp]
  | pred, pred2, fl, hagree, hfl, pre, .dir n cs => by
    have hag : pred2 { path := pre ++ [n], isDir := true }
        = pred { path := pre ++ [n], isDir := true } :=
      hagree _ fun hcon => by simpa using congrArg DirEntryM.isDir hcon
    rw [walkF, walkF, hag]
    cases hq : pred { path := pre ++ [n], isDir := true } with
    | false => simp [hq]
    | true =>
      simp only [if_true]
      rw [List.filter_cons]
      have hne : (decide (({ path := pre ++ [n], isDir := true } : DirEntryM)
          = { path := fl, isDir := false })) = false := by
        simp [DirEntryM.mk.injEq]
      rw [hne]
      simp only [Bool.not_false, if_true]
      rw [walkForest_file_rm pred pred2 fl hagree hfl (pre ++ [n]) cs]

theorem walkForest_file_rm : ∀ (pred pred2 : DirEntryM → Bool) (fl : PathM),
    (∀ e, e ≠ ({ path := fl, isDir := false } : DirEntryM) → pred2 e = pred e) →
    pred2 { path := fl, isDir := false } = false → ∀ (pre : PathM) (ts : FSForest),
    walkForest pred2 pre ts = (walkForest pred pre ts).filter fun e =>
      !(decide (e = { path := fl, isDir := false }))
  | pred, pred2, fl, hagree, hfl, pre, .nil => rfl
  | pred, pred2, fl, hagree, hfl, pre, .cons t ts => by
    rw [walkForest, walkForest, List.filter_append,
      walkF_file_rm pred pred2 fl hagree hfl pre t,
      walkForest_file_rm pred pred2 fl hagree hfl pre ts]
end
/-! ### From the provider stream to the index -/

theorem applyFiterFn_map_ok (b : WalkTreeBuilderM T) (l : List DirEntryM) :
    applyFiterFn b (l.map Except.ok) = l := by
  rw [applyFiterFn_eq]
  induction l with
  | nil => rfl
  | cons e l ih => simp [resultOk, ih]

theorem applyMapFn_some (f : DirEntryM → T) (l : List DirEntryM) :
    applyMapFn (some f) l = some (l.map fun v => { path := v.path, data := f v }) := by
  induction l with
  | nil => rfl
  | cons e l ih => simp [applyMapFn, ih]

theorem fst_mem_of_mem_walkPairsAux :
    ∀ (ns : List (WalkTreeNodeM T)) (i : Nat) (pr : PathM × Nat),
      pr ∈ walkPairsAux i ns → pr.1 ∈ ns.map WalkTreeNodeM.path := by
  intro ns
  induction ns with
  | nil => intro i pr h; exact absurd h (List.not_mem_nil _)
  | cons nd rest ih =>
    intro i pr h
    rcases List.mem_cons.mp h with h | h
    · rw [h]
      exact List.mem_cons_self _ _
    · exact List.mem_cons_of_mem _ (ih (i + 1) pr h)

/-- C7: when the configured filter rejects a directory entry, neither that
directory's path nor any descendant path reaches the resulting index (the
provider never yields them), while rejecting a file entry removes exactly
that one entry from the provider's output. -/
theorem C7_prune_semantics (T : Type) (f : DirEntryM → T) (root : PathM)
    (pred pred2 : DirEntryM → Bool) (order : List (PathM × Nat))
    (tr : FSTree) (d fl : PathM) (t : WalkTreeM T)
    (hwalk : walk (withFliter (withMap (load root) f) pred)
      ((walkF pred [] tr).map Except.ok) order = some (Except.ok t))
    (hwf : wfT tr = true) (hdir : hasDirAtT [] tr d = true)
    (hrej : pred { path := d, isDir := true } = false)
    (hagree : ∀ e, e ≠ ({ path := fl, isDir := false } : DirEntryM) → pred2 e = pred e)
    (hfl : pred2 { path := fl, isDir := false } = false) :
    (∀ p, d <+: p → getNodeIdByPath t p = none) ∧
    ∀ pre, walkF pred2 pre tr = (walkF pred pre tr).filter fun e =>
      !(decide (e = { path := fl, isDir := false })) := by
  constructor
  · obtain ⟨nodes, hnodes, ht⟩ := walk_eq_ok hwalk
    subst ht
    intro p hdp
    cases hq : getNodeIdByPath
        (build (walkArena nodes) (collectBiMap (walkPairs nodes)) order) p with
    | none => rfl
    | some id =>
      exfalso
      have hm : (p, id) ∈ walkPairs nodes := mem_collectBiMap (mem_of_getByLeft hq)
      have hp1 : p ∈ nodes.map WalkTreeNodeM.path :=
        fst_mem_of_mem_walkPairsAux nodes 0 (p, id) hm
      rw [applyFiterFn_map_ok,
        show (withFliter (withMap (load root) f) pred).fnMap = some f from rfl,
        applyMapFn_some] at hnodes
      have hnodes2 : nodes = (walkF pred [] tr).map
          fun v => { path := v.path, data := f v } := (Option.some.inj hnodes).symm
      rw [hnodes2, List.map_map] at hp1
      obtain ⟨e, hemem, hep⟩ := List.mem_map.mp hp1
      have hep2 : e.path = p := hep
      exact walkF_prune pred [] tr d hwf hdir hrej e hemem (by rw [hep2]; exact hdp)
  · intro pre
    exact walkF_file_rm pred pred2 fl hagree hfl pre tr

/-- C7 witness: rejecting directory `/r/a` keeps `/r/a/x` out of the index
of the walked sample filesystem, and further rejecting the file `/r/b`
removes exactly that entry from the provider's output. -/
theorem C7_prune_semantics_witness :
    getNodeIdByPath sampleTree3 ["r", "a", "x"] = none ∧
    walkF samplePred2 [] sampleFS = (walkF samplePred [] sampleFS).filter fun e =>
      !(decide (e = { path := ["r", "b"], isDir := false })) := by
  have h := C7_prune_semantics PathM pathData [] samplePred samplePred2 sampleOrder3
    sampleFS ["r", "a"] ["r", "b"] sampleTree3 rfl (by decide) (by decide) (by decide)
    (fun e hne => by simp [samplePred2, hne]) (by decide)
  exact ⟨h.1 ["r", "a", "x"] (by decide), h.2 []⟩
end Walktree
